import Mathlib

/-!
Verification of the scatter/gather common-substrings filter
(`scatter_v1.cpp`, `gather_v1.cpp`, `master.cpp`).

The development shallowly embeds the hashing engine, the co-filter map,
the gather run detector, the batch arithmetic and the permutation
generator, and proves the testable properties stated in the
specification against these embeddings.

Bytes are modelled as `Fin 256` (the C `uint8_t`); the wide C
accumulators (`uint64_t`) are modelled as `ℕ`, which is faithful because
every intermediate value is proved (or is obviously) far below `2^64`,
and each C subtraction is proved non-underflowing, so the truncated
`ℕ` subtraction agrees with the machine value.
-/

namespace CSF

/-- A byte, the C `uint8_t`. -/
abbrev Byte := Fin 256

/-! ### Global parameters (identical in `scatter_v1.cpp` and `gather_v1.cpp`) -/

/-- Number of diversified hashes (`#define DV 8`). -/
def DV : ℕ := 8
/-- Shingle length (`#define L 5`). -/
def L : ℕ := 5
/-- Shingle carry length (`#define LC (L-1)`). -/
def LC : ℕ := L - 1
/-- Prefix length (`#define LP 10`, gather only). -/
def LP : ℕ := 10
/-- Batch size (`#define BATCH_SIZE (8*1024)`). -/
def BATCH_SIZE : ℕ := 8 * 1024
/-- Length of the reference string (`#define ns 1000000000ULL`). -/
def ns : ℕ := 1000000000
/-- Length of the test string (`#define NS 100000000ULL`, gather only). -/
def NS : ℕ := 100000000
/-- Number of test shingles (`#define N (NS - L + 1)`, gather only). -/
def Ntest : ℕ := NS - L + 1
/-- Modulus of the common hashes (`#define M_COM 1000000007ULL`). -/
def M_COM : ℕ := 1000000007
/-- Base of the common hashes (`#define B_COM 257ULL`). -/
def B_COM : ℕ := 257
/-- Modulus of the diversified hashes (`#define M_DIV 67ULL`). -/
def M_DIV : ℕ := 67
/-- Diversified fingerprint bases (`const uint64_t B_DIV[DV]`). -/
def B_DIV : Fin DV → ℕ := ![257, 263, 269, 271, 277, 281, 283, 293]

/-- The constant `C_COM = (B_COM ^ L) % M_COM`, computed exactly as the
source lambda `c_com` does: `L` iterations of `result *= B_COM; result %= M_COM`
starting from `1`. -/
def C_COM : ℕ := (List.range L).foldl (fun r _ => r * B_COM % M_COM) 1

/-- The constants `C_DIV[id] = (B_DIV[id] ^ L) % M_DIV`, computed exactly as
the source lambda `c_div` does. -/
def C_DIV (id : Fin DV) : ℕ := (List.range L).foldl (fun r _ => r * B_DIV id % M_DIV) 1

/-! ### Rolling hash engine (`hash_batch`, `update_div_hashes`)

A buffer is modelled as a function `ℕ → Byte` giving the (already
shuffled) byte at each offset.  `hornerCom`/`hornerDiv` are the
from-scratch Horner initialisations of `hash_batch` (the loops computing
the hash of the leftmost shingle), generalised to an arbitrary start
offset `i`.  `com_hash`/`div_hash` compute the value the rolling updates
of `hash_batch` produce for the shingle starting at offset `i`. -/

/-- From-scratch common hash of the shingle starting at `i`:
the `hash_batch` loop `com_hash[0] = (com_hash[0] * B_COM + s[j]) % M_COM`. -/
def hornerCom (s : ℕ → Byte) (i : ℕ) : ℕ :=
  (List.range L).foldl (fun h j => (h * B_COM + (s (i + j)).val) % M_COM) 0

/-- From-scratch diversified hash of the shingle starting at `i`:
the `hash_batch` loop `div_hash[id] = (div_hash[id] * B_DIV[id] + s[j]) % M_DIV`. -/
def hornerDiv (id : Fin DV) (s : ℕ → Byte) (i : ℕ) : ℕ :=
  (List.range L).foldl (fun h j => (h * B_DIV id + (s (i + j)).val) % M_DIV) 0

/-- The common hash that `hash_batch` stores in `com_hash[i]`: the first value
comes from the Horner loop, the following ones from the roll
`com_hash[j+1] = ((com_hash[j] + M_COM) * B_COM - C_COM * s[j] + s[j+L]) % M_COM`. -/
def com_hash (s : ℕ → Byte) : ℕ → ℕ
  | 0 => hornerCom s 0
  | j + 1 => ((com_hash s j + M_COM) * B_COM - C_COM * (s j).val + (s (j + L)).val) % M_COM

/-- The diversified hash that `hash_batch` stores in `div_hash[i*DV + id]`:
the first value comes from the Horner loop, the following ones from
`update_div_hashes`, which computes
`(256*M_DIV + s[L] + hash[id] * B_DIV[id] - C_DIV[id] * s[0]) % M_DIV`
on the window starting at the previous shingle. -/
def div_hash (id : Fin DV) (s : ℕ → Byte) : ℕ → ℕ
  | 0 => hornerDiv id s 0
  | j + 1 => (256 * M_DIV + (s (j + L)).val + div_hash id s j * B_DIV id
      - C_DIV id * (s j).val) % M_DIV

/-! ### Co-filter map (write path of scatter, read path of gather)

The map is a function from byte addresses to byte values.  Scatter
initialises every byte to `0b11111111` and clears bits; gather reads
bytes and aggregates the per-co-filter bits. -/

/-- Clearing bit `id` of the byte `b`: the C statement `b &= ~(1<<id)`
restricted to the low 8 bits (map bytes are `uint8_t`). -/
def clearBit (b : ℕ) (id : ℕ) : ℕ := b &&& (255 ^^^ (1 <<< id))

/-- One scatter map write: `map[a] &= ~(1<<id)` (`worker3_thread`). -/
def markAddr (m : ℕ → ℕ) (a : ℕ) (id : ℕ) : ℕ → ℕ :=
  Function.update m a (clearBit (m a) id)

/-- The inner loop of scatter's `worker3_thread` for one shingle: for each
`id < DV`, clear bit `id` of `map[com + div id]`. -/
def consumeShingle (m : ℕ → ℕ) (com : ℕ) (div : Fin DV → ℕ) : ℕ → ℕ :=
  (List.finRange DV).foldl (fun m1 id => markAddr m1 (com + div id) id.val) m

/-- The map right after `memset(map, 0b11111111, M_COM + M_DIV)`. -/
def initMap : ℕ → ℕ := fun _ => 255

/-- Scatter's consume step over the shingles `0, …, count-1` of the shuffled
reference buffer `s`: the composition of `worker3_thread`'s per-batch loops. -/
def scatter_consume (s : ℕ → Byte) (count : ℕ) (m : ℕ → ℕ) : ℕ → ℕ :=
  (List.range count).foldl
    (fun m1 j => consumeShingle m1 (com_hash s j) (fun id => div_hash id s j)) m

/-- Gather's `check_hash`: `w = 0; for id: w |= map[hash[id]] & (1<<id)`. -/
def check_hash (m : ℕ → ℕ) (hash : Fin DV → ℕ) : ℕ :=
  (List.finRange DV).foldl (fun w id => w ||| (m (hash id) &&& (1 <<< id.val))) 0

/-- The `DV` aggregated addresses `hash[id] = com_hash[j] + div_hash[j*DV+id]`
that gather's `check_batch` computes for shingle `j` of buffer `s`. -/
def shingleAddrs (s : ℕ → Byte) (j : ℕ) : Fin DV → ℕ :=
  fun id => com_hash s j + div_hash id s j

/-- The aggregated-address sequence of shingles `0, …, count-1` of buffer `s`. -/
def shingleHashes (s : ℕ → Byte) (count : ℕ) : List (Fin DV → ℕ) :=
  (List.range count).map (shingleAddrs s)

/-! ### Gather run detector (`check_batch`) -/

/-- The run-detector accumulators of gather: the `static uint64_t count` of
`check_batch` and the globals `residue` and `max_count`. -/
structure GatherState where
  count : ℕ
  residue : ℕ
  max_count : ℕ
deriving DecidableEq

/-- One iteration of `check_batch`'s loop body:
`if (check_hash(hash) == 0) count++; else count= 0;`
`if (count > LP - L) residue++;  if (count > max_count) max_count= count;`. -/
def check_step (m : ℕ → ℕ) (st : GatherState) (h : Fin DV → ℕ) : GatherState :=
  let count := if check_hash m h = 0 then st.count + 1 else 0
  let residue := if count > LP - L then st.residue + 1 else st.residue
  let mc := if count > st.max_count then count else st.max_count
  ⟨count, residue, mc⟩

/-- Gather's `check_batch` over a list of aggregated-address vectors. -/
def check_batch (m : ℕ → ℕ) (st : GatherState) (hs : List (Fin DV → ℕ)) : GatherState :=
  hs.foldl (check_step m) st

/-- The successive values of the run counter `count` while `check_batch`
processes a list of shingles, starting from counter value `c`. -/
def countTrace (m : ℕ → ℕ) (c : ℕ) : List (Fin DV → ℕ) → List ℕ
  | [] => []
  | h :: hs =>
    let c1 := if check_hash m h = 0 then c + 1 else 0
    c1 :: countTrace m c1 hs

/-! ### Batch arithmetic (`main`, `worker1_thread`) -/

/-- The batch count both `main`s compute:
`batch_count= total / BATCH_SIZE; if ((total - (batch_count * BATCH_SIZE)) > 0) batch_count++;`. -/
def batch_count_of (total : ℕ) : ℕ :=
  if total - total / BATCH_SIZE * BATCH_SIZE > 0 then total / BATCH_SIZE + 1
  else total / BATCH_SIZE

/-- Both `main`s execute `if (batch_count < 3) exit(10);` before the map is
allocated and before any thread is started. -/
def config_exit (total : ℕ) : Option ℕ :=
  if batch_count_of total < 3 then some 10 else none

/-- The size of the last batch (`worker1_thread`):
`last_batch_size= total - (batch_count * BATCH_SIZE); if (... == 0) last_batch_size= BATCH_SIZE;`. -/
def last_batch_size_of (total : ℕ) : ℕ :=
  if total - total / BATCH_SIZE * BATCH_SIZE > 0 then total - total / BATCH_SIZE * BATCH_SIZE
  else BATCH_SIZE

/-- The number of bytes the workers read for 1-based batch `i`: `BATCH_SIZE`
for every batch except the last, which gets `last_batch_size`. -/
def batch_size_of (total i : ℕ) : ℕ :=
  if i = batch_count_of total then last_batch_size_of total else BATCH_SIZE

/-- Gather's `worker1_thread` positions the master-file stream with
`string_input_stream.seekg (ns, string_input_stream.beg)`. -/
def gather_seek_pos : ℕ := ns

/-- Total number of test bytes gather's `worker1_thread` reads from the
master file: the sum of the sizes of its `N / BATCH_SIZE (+1)` batches
(`N = NS - L + 1`). -/
def gather_bytes_read : ℕ :=
  ((List.range (batch_count_of Ntest)).map (fun k => batch_size_of Ntest (k + 1))).sum

/-- Total number of shingles gather's `worker3_thread` passes to
`check_batch`: `batch_size - LC` for the first batch (`skip_first_carry`),
`batch_size` for every other batch. -/
def gather_shingles_checked : ℕ :=
  ((List.range (batch_count_of Ntest)).map
    (fun k => batch_size_of Ntest (k + 1) - if k = 0 then LC else 0)).sum

/-! ### Byte permutation generator (`rcp_generator`)

`draws` is the sequence of values produced by
`uniform_int_distribution<uint8_t> dist(0, 255)` applied to the PRNG; the
generator consumes one draw per output slot.  The C `while (a[rand]) {rand++;}`
increments a `uint8_t`, i.e. wraps around modulo 256; `probe` models it with
explicit fuel and the development proves fuel `256` always suffices. -/

/-- Linear probing with wrap-around: `while (a[rand]) {rand++;}`. -/
def probe (a : Fin 256 → Bool) (r : Fin 256) : ℕ → Option (Fin 256)
  | 0 => none
  | fuel + 1 => if a r then probe a (r + 1) fuel else some r

/-- The main loop of `rcp_generator`: `cnt` remaining slots, `j` the index of
the next draw; each step probes from `draws j`, marks the found slot and
records it in `p`. -/
def rcpAux (draws : ℕ → Fin 256) (a : Fin 256 → Bool) (j : ℕ) : ℕ → Option (List (Fin 256))
  | 0 => some []
  | cnt + 1 =>
    match probe a (draws j) 256 with
    | none => none
    | some r => (rcpAux draws (Function.update a r true) (j + 1) cnt).map (fun p => r :: p)

/-- The full `rcp_generator` run: all 256 slots from an all-false `a[]`. -/
def rcp_generator (draws : ℕ → Fin 256) : Option (List (Fin 256)) :=
  rcpAux draws (fun _ => false) 0 256

/-- The duplicate-detection test at the end of `rcp_generator`
(`if (p[j] == p[i]) { printf("RCP ERROR\n"); exit(25); }`): `true` iff some
pair of distinct slots holds equal values. -/
def rcp_dup_error (p : List (Fin 256)) : Bool :=
  decide (∃ j : Fin p.length, ∃ i : Fin p.length, j < i ∧ p.get j = p.get i)

/-! ### Memory accesses of `hash_batch`

Index sets of the array accesses performed by `hash_batch(s, hash_count,
com_hash, div_hash)`, transcribed loop by loop from the source.  The
containers allocate `BATCH_SIZE + LC` bytes for `s`, `BATCH_SIZE` entries
for `com_hash` and `BATCH_SIZE * DV` entries for `div_hash`. -/

/-- Indices written to `com_hash`: `com_hash[0]` by the Horner loop and
`com_hash[j+1]` for `j = 0, …, hash_count-1` by the rolling loop. -/
def comWriteIdx (hc i : ℕ) : Prop := i = 0 ∨ ∃ j, j < hc ∧ i = j + 1

/-- Indices written to `div_hash`: `div_hash[id]` and `div_hash[DV+id]` by
the Horner loop, and `div_hash[j*DV+id]`, `div_hash[(j+1)*DV+id]` for
`j = 1, …, hash_count-1` by `update_div_hashes`. -/
def divWriteIdx (hc i : ℕ) : Prop :=
  (∃ id, id < DV ∧ (i = id ∨ i = DV + id)) ∨
  (∃ j, 1 ≤ j ∧ j < hc ∧ ∃ id, id < DV ∧ (i = j * DV + id ∨ i = (j + 1) * DV + id))

/-- Indices read from `s`: `s[j]` for `j < L` by the two Horner loops,
`s[j]` and `s[j+L]` for `j < hash_count` by the common rolling loop, and
`s[j-1]`, `s[j-1+L]` for `j = 1, …, hash_count-1` by `update_div_hashes`. -/
def bufReadIdx (hc i : ℕ) : Prop :=
  (∃ j, j < L ∧ i = j) ∨ (∃ j, j < hc ∧ (i = j ∨ i = j + L)) ∨
  (∃ j, 1 ≤ j ∧ j < hc ∧ (i = j - 1 ∨ i = (j - 1) + L))

/-- The all-zero byte buffer, used as a concrete evaluation input. -/
def zeroBuf : ℕ → Byte := fun _ => 0

/-- Co-filter index 0, used as a concrete evaluation input. -/
def cofilter0 : Fin DV := ⟨0, by decide⟩

end CSF

namespace CSF

/-! ### Basic facts about the hash engine -/

theorem hornerCom_lt (s : ℕ → Byte) (i : ℕ) : hornerCom s i < M_COM :=
  Nat.mod_lt _ (by norm_num [M_COM])

theorem hornerDiv_lt (id : Fin DV) (s : ℕ → Byte) (i : ℕ) : hornerDiv id s i < M_DIV :=
  Nat.mod_lt _ (by norm_num [M_DIV])

theorem com_hash_lt (s : ℕ → Byte) (i : ℕ) : com_hash s i < M_COM := by
  cases i with
  | zero => exact hornerCom_lt s 0
  | succ j => exact Nat.mod_lt _ (by norm_num [M_COM])

theorem div_hash_lt (id : Fin DV) (s : ℕ → Byte) (i : ℕ) : div_hash id s i < M_DIV := by
  cases i with
  | zero => exact hornerDiv_lt id s 0
  | succ j => exact Nat.mod_lt _ (by norm_num [M_DIV])

theorem C_COM_lt : C_COM < M_COM := by decide

theorem C_DIV_lt (id : Fin DV) : C_DIV id < M_DIV := by
  fin_cases id <;> decide

/-- Casting a `foldl` of Horner steps into `ZMod M` forgets the inner moduli. -/
theorem foldl_horner_cast (B M : ℕ) (g : ℕ → ℕ) (l : List ℕ) (h0 : ℕ) :
    ((l.foldl (fun h j => (h * B + g j) % M) h0 : ℕ) : ZMod M)
      = l.foldl (fun h j => h * (B : ZMod M) + (g j : ZMod M)) ((h0 : ℕ) : ZMod M) := by
  induction l generalizing h0 with
  | nil => rfl
  | cons x xs ih =>
    simp only [List.foldl_cons]
    rw [ih, ZMod.natCast_mod]
    push_cast
    rfl

theorem C_COM_cast : ((C_COM : ℕ) : ZMod M_COM) = (B_COM : ZMod M_COM) ^ L := by
  have h : C_COM = B_COM ^ L % M_COM := by decide
  rw [h, ZMod.natCast_mod]
  push_cast
  rfl

theorem C_DIV_cast (id : Fin DV) :
    ((C_DIV id : ℕ) : ZMod M_DIV) = (B_DIV id : ZMod M_DIV) ^ L := by
  have h : C_DIV id = B_DIV id ^ L % M_DIV := by fin_cases id <;> decide
  rw [h, ZMod.natCast_mod]
  push_cast
  rfl

theorem range_L : List.range L = [0, 1, 2, 3, 4] := by decide

theorem hornerCom_cast (s : ℕ → Byte) (i : ℕ) :
    ((hornerCom s i : ℕ) : ZMod M_COM)
      = ((((((s i).val * B_COM + (s (i+1)).val) * B_COM + (s (i+2)).val) * B_COM
          + (s (i+3)).val) * B_COM + (s (i+4)).val : ℕ) : ZMod M_COM) := by
  rw [hornerCom, range_L, foldl_horner_cast]
  simp only [List.foldl_cons, List.foldl_nil, add_zero]
  push_cast
  ring

theorem hornerDiv_cast (id : Fin DV) (s : ℕ → Byte) (i : ℕ) :
    ((hornerDiv id s i : ℕ) : ZMod M_DIV)
      = ((((((s i).val * B_DIV id + (s (i+1)).val) * B_DIV id + (s (i+2)).val) * B_DIV id
          + (s (i+3)).val) * B_DIV id + (s (i+4)).val : ℕ) : ZMod M_DIV) := by
  rw [hornerDiv, range_L, foldl_horner_cast]
  simp only [List.foldl_cons, List.foldl_nil, add_zero]
  push_cast
  ring

/-- The rolled common hash coincides with the from-scratch Horner hash. -/
theorem com_hash_eq_horner (s : ℕ → Byte) : ∀ i, com_hash s i = hornerCom s i := by
  intro i
  induction i with
  | zero => rfl
  | succ j ih =>
    rw [com_hash, ih]
    -- no underflow: C_COM * s[j] ≤ (hornerCom s j + M_COM) * B_COM
    have hb : (s j).val ≤ 255 := Nat.lt_succ_iff.mp (s j).isLt
    have hsub : C_COM * (s j).val ≤ (hornerCom s j + M_COM) * B_COM := by
      calc C_COM * (s j).val ≤ M_COM * 255 :=
            Nat.mul_le_mul (Nat.le_of_lt C_COM_lt) hb
        _ ≤ M_COM * B_COM := Nat.mul_le_mul_left _ (by norm_num [B_COM])
        _ ≤ (hornerCom s j + M_COM) * B_COM :=
            Nat.mul_le_mul_right _ (Nat.le_add_left _ _)
    have h1 : ((hornerCom s j + M_COM) * B_COM - C_COM * (s j).val + (s (j + L)).val)
        % M_COM < M_COM := Nat.mod_lt _ (by norm_num [M_COM])
    have h2 : hornerCom s (j+1) < M_COM := hornerCom_lt s (j+1)
    have hcast : (((hornerCom s j + M_COM) * B_COM - C_COM * (s j).val + (s (j + L)).val)
        % M_COM : ℕ) = ((hornerCom s (j+1) : ℕ) : ZMod M_COM) := by
      rw [ZMod.natCast_mod, Nat.cast_add, Nat.cast_sub hsub]
      rw [hornerCom_cast s (j+1)]
      push_cast [C_COM_cast]
      have hz : ((M_COM : ℕ) : ZMod M_COM) = 0 := ZMod.natCast_self _
      rw [hz]
      have hj := hornerCom_cast s j
      push_cast at hj
      rw [hj]
      have hL : j + L = j + 5 := rfl
      have hLB : (B_COM : ZMod M_COM) ^ L = (B_COM : ZMod M_COM) ^ 5 := rfl
      rw [hL, hLB]
      have e1 : j + 1 + 1 = j + 2 := by ring
      have e2 : j + 1 + 2 = j + 3 := by ring
      have e3 : j + 1 + 3 = j + 4 := by ring
      have e4 : j + 1 + 4 = j + 5 := by ring
      rw [e1, e2, e3, e4]
      ring
    have := congrArg ZMod.val hcast
    rwa [ZMod.val_cast_of_lt h1, ZMod.val_cast_of_lt h2] at this

/-- The rolled diversified hash coincides with the from-scratch Horner hash. -/
theorem div_hash_eq_horner (id : Fin DV) (s : ℕ → Byte) :
    ∀ i, div_hash id s i = hornerDiv id s i := by
  intro i
  induction i with
  | zero => rfl
  | succ j ih =>
    rw [div_hash, ih]
    have hb : (s j).val ≤ 255 := Nat.lt_succ_iff.mp (s j).isLt
    have hsub : C_DIV id * (s j).val
        ≤ 256 * M_DIV + (s (j + L)).val + hornerDiv id s j * B_DIV id := by
      calc C_DIV id * (s j).val ≤ M_DIV * 255 :=
            Nat.mul_le_mul (Nat.le_of_lt (C_DIV_lt id)) hb
        _ ≤ 256 * M_DIV := by norm_num [M_DIV]
        _ ≤ 256 * M_DIV + (s (j + L)).val + hornerDiv id s j * B_DIV id :=
            le_add_of_le_of_nonneg (Nat.le_add_right _ _) (Nat.zero_le _)
    have h1 : (256 * M_DIV + (s (j + L)).val + hornerDiv id s j * B_DIV id
        - C_DIV id * (s j).val) % M_DIV < M_DIV := Nat.mod_lt _ (by norm_num [M_DIV])
    have h2 : hornerDiv id s (j+1) < M_DIV := hornerDiv_lt id s (j+1)
    have hcast : ((256 * M_DIV + (s (j + L)).val + hornerDiv id s j * B_DIV id
        - C_DIV id * (s j).val) % M_DIV : ℕ)
          = ((hornerDiv id s (j+1) : ℕ) : ZMod M_DIV) := by
      rw [ZMod.natCast_mod, Nat.cast_sub hsub]
      rw [hornerDiv_cast id s (j+1)]
      push_cast [C_DIV_cast]
      have hz : ((M_DIV : ℕ) : ZMod M_DIV) = 0 := ZMod.natCast_self _
      rw [hz]
      have hj := hornerDiv_cast id s j
      push_cast at hj
      rw [hj]
      have hL : j + L = j + 5 := rfl
      have hLB : (B_DIV id : ZMod M_DIV) ^ L = (B_DIV id : ZMod M_DIV) ^ 5 := rfl
      rw [hL, hLB]
      have e1 : j + 1 + 1 = j + 2 := by ring
      have e2 : j + 1 + 2 = j + 3 := by ring
      have e3 : j + 1 + 3 = j + 4 := by ring
      have e4 : j + 1 + 4 = j + 5 := by ring
      rw [e1, e2, e3, e4]
      ring
    have := congrArg ZMod.val hcast
    rwa [ZMod.val_cast_of_lt h1, ZMod.val_cast_of_lt h2] at this

/-! ### Window congruence: a shingle hash depends only on its `L` bytes -/

theorem hornerCom_congr (s t : ℕ → Byte) (i r : ℕ)
    (h : ∀ k, k < L → t (i + k) = s (r + k)) : hornerCom t i = hornerCom s r := by
  have h0 : t i = s r := by simpa using h 0 (by norm_num [L])
  have h1 : t (i + 1) = s (r + 1) := h 1 (by norm_num [L])
  have h2 : t (i + 2) = s (r + 2) := h 2 (by norm_num [L])
  have h3 : t (i + 3) = s (r + 3) := h 3 (by norm_num [L])
  have h4 : t (i + 4) = s (r + 4) := h 4 (by norm_num [L])
  rw [hornerCom, hornerCom, range_L]
  simp only [List.foldl_cons, List.foldl_nil, add_zero]
  rw [h0, h1, h2, h3, h4]

theorem hornerDiv_congr (id : Fin DV) (s t : ℕ → Byte) (i r : ℕ)
    (h : ∀ k, k < L → t (i + k) = s (r + k)) : hornerDiv id t i = hornerDiv id s r := by
  have h0 : t i = s r := by simpa using h 0 (by norm_num [L])
  have h1 : t (i + 1) = s (r + 1) := h 1 (by norm_num [L])
  have h2 : t (i + 2) = s (r + 2) := h 2 (by norm_num [L])
  have h3 : t (i + 3) = s (r + 3) := h 3 (by norm_num [L])
  have h4 : t (i + 4) = s (r + 4) := h 4 (by norm_num [L])
  rw [hornerDiv, hornerDiv, range_L]
  simp only [List.foldl_cons, List.foldl_nil, add_zero]
  rw [h0, h1, h2, h3, h4]

/-! ### Bit-level facts about the map operations -/

theorem testBit_clearBit_self (b : ℕ) (id : Fin DV) :
    (clearBit b id.val).testBit id.val = false := by
  have hmask : Nat.testBit (255 ^^^ (1 <<< id.val)) id.val = false := by
    fin_cases id <;> decide
  rw [clearBit, Nat.testBit_land, hmask, Bool.and_false]

theorem testBit_clearBit_le (b : ℕ) (id k : ℕ)
    (h : (clearBit b id).testBit k = true) : b.testBit k = true := by
  rw [clearBit, Nat.testBit_land, Bool.and_eq_true] at h
  exact h.1

theorem testBit_markAddr_le (m : ℕ → ℕ) (a : ℕ) (id : ℕ) (x k : ℕ)
    (h : ((markAddr m a id) x).testBit k = true) : (m x).testBit k = true := by
  rw [markAddr] at h
  by_cases hx : x = a
  · subst hx
    rw [Function.update_same] at h
    exact testBit_clearBit_le _ _ _ h
  · rwa [Function.update_noteq hx] at h

theorem foldl_markAddr_le (f : Fin DV → ℕ) (l : List (Fin DV)) (m : ℕ → ℕ) (x k : ℕ)
    (h : ((l.foldl (fun m1 id => markAddr m1 (f id) id.val) m) x).testBit k = true) :
    (m x).testBit k = true := by
  induction l generalizing m with
  | nil => exact h
  | cons hd tl ih =>
    simp only [List.foldl_cons] at h
    exact testBit_markAddr_le _ _ _ _ _ (ih _ h)

theorem consumeShingle_le (m : ℕ → ℕ) (com : ℕ) (div : Fin DV → ℕ) (x k : ℕ)
    (h : ((consumeShingle m com div) x).testBit k = true) : (m x).testBit k = true :=
  foldl_markAddr_le (fun id => com + div id) _ m x k h

theorem foldl_markAddr_marks (f : Fin DV → ℕ) (l : List (Fin DV)) (m : ℕ → ℕ)
    (id : Fin DV) (hmem : id ∈ l) :
    ((l.foldl (fun m1 i => markAddr m1 (f i) i.val) m) (f id)).testBit id.val = false := by
  induction l generalizing m with
  | nil => cases hmem
  | cons hd tl ih =>
    simp only [List.foldl_cons]
    rcases List.mem_cons.mp hmem with heq | htl
    · subst heq
      -- the bit is cleared now and stays cleared through the rest of the fold
      have hcleared : ((markAddr m (f id) id.val) (f id)).testBit id.val = false := by
        rw [markAddr, Function.update_same]
        exact testBit_clearBit_self _ _
      by_contra hcon
      rw [Bool.not_eq_false] at hcon
      rw [foldl_markAddr_le f tl _ _ _ hcon] at hcleared
      cases hcleared
    · exact ih _ htl

theorem consumeShingle_marks (m : ℕ → ℕ) (com : ℕ) (div : Fin DV → ℕ) (id : Fin DV) :
    ((consumeShingle m com div) (com + div id)).testBit id.val = false :=
  foldl_markAddr_marks (fun i => com + div i) _ m id (List.mem_finRange id)

theorem scatter_consume_succ (s : ℕ → Byte) (c : ℕ) (m : ℕ → ℕ) :
    scatter_consume s (c + 1) m
      = consumeShingle (scatter_consume s c m) (com_hash s c) (fun id => div_hash id s c) := by
  rw [scatter_consume, scatter_consume, List.range_succ, List.foldl_append]
  rfl

/-- Post-scatter marking invariant: after consuming `count` shingles, for
every already-consumed shingle `r` and every co-filter `id`, bit `id` of
`map[com_hash r + div_hash id r]` is `0`. -/
theorem scatter_consume_marks (s : ℕ → Byte) (count : ℕ) (r : ℕ) (hr : r < count)
    (id : Fin DV) :
    ((scatter_consume s count initMap) (com_hash s r + div_hash id s r)).testBit id.val
      = false := by
  induction count with
  | zero => cases hr
  | succ c ih =>
    rw [scatter_consume_succ]
    rcases Nat.lt_succ_iff_lt_or_eq.mp hr with hlt | heq
    · by_contra hcon
      rw [Bool.not_eq_false] at hcon
      have := consumeShingle_le _ _ _ _ _ hcon
      rw [ih hlt] at this
      cases this
    · subst heq
      exact consumeShingle_marks _ _ _ _

/-! ### `check_hash` returns 0 on fully marked addresses -/

theorem and_shift_eq_zero (b k : ℕ) (h : b.testBit k = false) : b &&& (1 <<< k) = 0 := by
  apply Nat.eq_of_testBit_eq
  intro i
  rw [Nat.testBit_land, Nat.zero_testBit]
  rw [Nat.shiftLeft_eq, one_mul]
  by_cases hik : k = i
  · subst hik
    rw [h, Bool.false_and]
  · simp [Nat.testBit_two_pow, hik]

theorem foldl_or_zero (l : List (Fin DV)) (g : Fin DV → ℕ)
    (h : ∀ id ∈ l, g id = 0) :
    (l.foldl (fun w id => w ||| g id) 0) = 0 := by
  induction l with
  | nil => rfl
  | cons hd tl ih =>
    simp only [List.foldl_cons]
    rw [h hd (List.mem_cons_self hd tl), Nat.or_zero]
    exact ih (fun id hid => h id (List.mem_cons_of_mem _ hid))

theorem check_hash_eq_zero (m : ℕ → ℕ) (hash : Fin DV → ℕ)
    (h : ∀ id : Fin DV, (m (hash id)).testBit id.val = false) :
    check_hash m hash = 0 := by
  rw [check_hash]
  exact foldl_or_zero _ _ (fun id _ => and_shift_eq_zero _ _ (h id))

/-! ### Claims C2, C3, C1 -/

/-- Claim C2 (rolling-hash consistency): for every shuffled byte stream and
every offset, the common hash produced by `hash_batch`'s rolling update
`((com(i)+M_COM)*B_COM - C_COM*s(i) + s(i+L)) mod M_COM` equals the
from-scratch Horner value over the window bytes, and likewise each
diversified hash produced by `update_div_hashes` equals its from-scratch
Horner value mod `M_DIV`. -/
theorem rolling_hash_consistency (s : ℕ → Byte) (i : ℕ) :
    com_hash s i = hornerCom s i
    ∧ ∀ id : Fin DV, div_hash id s i = hornerDiv id s i :=
  ⟨com_hash_eq_horner s i, fun id => div_hash_eq_horner id s i⟩

/-- Claim C3 (address-range invariant): every common hash produced by
`hash_batch` lies in `[0, M_COM)`, every diversified hash lies in
`[0, M_DIV)`, hence every map index `com + div` used by scatter's bit-clear
and gather's `check_hash` lies in `[0, M_COM + M_DIV)`, within the map of
`M_COM + M_DIV` bytes allocated by both `main`s. -/
theorem address_range (s : ℕ → Byte) (i : ℕ) (id : Fin DV) :
    com_hash s i < M_COM ∧ div_hash id s i < M_DIV
    ∧ com_hash s i + div_hash id s i < M_COM + M_DIV :=
  ⟨com_hash_lt s i, div_hash_lt id s i,
    Nat.add_lt_add (com_hash_lt s i) (div_hash_lt id s i)⟩

/-- Claim C1 (filter soundness, no false negatives): starting from the
all-ones map, after scatter's consume step has cleared bit `id` of
`map[com(r) + div_id(r)]` for every reference shingle `r < nref` and every
`id < DV`, every test shingle whose `L` shuffled bytes literally equal those
of some reference shingle has `check_hash` return 0 on its `DV` aggregated
addresses. -/
theorem filter_soundness (s t : ℕ → Byte) (nref i r : ℕ) (hr : r < nref)
    (heq : ∀ k, k < L → t (i + k) = s (r + k)) :
    check_hash (scatter_consume s nref initMap) (shingleAddrs t i) = 0 := by
  have hcom : com_hash t i = com_hash s r := by
    rw [com_hash_eq_horner, com_hash_eq_horner]
    exact hornerCom_congr s t i r heq
  have hdiv : ∀ id : Fin DV, div_hash id t i = div_hash id s r := fun id => by
    rw [div_hash_eq_horner, div_hash_eq_horner]
    exact hornerDiv_congr id s t i r heq
  have haddr : shingleAddrs t i = shingleAddrs s r := by
    funext id
    show com_hash t i + div_hash id t i = com_hash s r + div_hash id s r
    rw [hcom, hdiv id]
  rw [haddr]
  exact check_hash_eq_zero _ _ (fun id => scatter_consume_marks s nref r hr id)

/-- Witness for claim C1 at a concrete input: reference stream of constant
zero bytes with one shingle, tested against its own shingle. -/
theorem filter_soundness_witness :
    (0 : ℕ) < 1 ∧ (∀ k, k < L → zeroBuf (0 + k) = zeroBuf (0 + k))
    ∧ check_hash (scatter_consume zeroBuf 1 initMap) (shingleAddrs zeroBuf 0) = 0 :=
  ⟨Nat.one_pos, fun _ _ => rfl,
    filter_soundness zeroBuf zeroBuf 1 0 0 Nat.one_pos (fun _ _ => rfl)⟩

/-! ### Run-detector semantics (claim C4) -/

theorem LP_sub_L : LP - L = 5 := rfl

theorem check_batch_append (m : ℕ → ℕ) (st : GatherState) (l1 l2 : List (Fin DV → ℕ)) :
    check_batch m st (l1 ++ l2) = check_batch m (check_batch m st l1) l2 := by
  rw [check_batch, check_batch, check_batch, List.foldl_append]

theorem check_batch_max_trace (m : ℕ → ℕ) (hs : List (Fin DV → ℕ)) :
    ∀ st : GatherState,
      (check_batch m st hs).max_count = (countTrace m st.count hs).foldl max st.max_count := by
  induction hs with
  | nil => intro st; rfl
  | cons a tl ih =>
    intro st
    rw [check_batch, List.foldl_cons, countTrace, List.foldl_cons]
    have hstep := ih (check_step m st a)
    rw [check_batch] at hstep
    rw [hstep]
    have hcount : (check_step m st a).count = if check_hash m a = 0 then st.count + 1 else 0 :=
      rfl
    have hmax : (check_step m st a).max_count
        = max st.max_count (if check_hash m a = 0 then st.count + 1 else 0) := by
      simp only [check_step]
      split_ifs <;> omega
    rw [hcount, hmax]

/-- Claim C4 (run-detector semantics): for each processed shingle the run
counter increments when `check_hash` returns 0 and resets to 0 otherwise;
`residue` increments exactly when the updated counter exceeds `LP - L`;
`max_count` is the running maximum of the counter values ever attained; and
the state (in particular `count`) persists across batch boundaries, i.e.
processing concatenated batches equals processing them in sequence. -/
theorem run_detector_semantics (m : ℕ → ℕ) (st : GatherState) (h : Fin DV → ℕ)
    (l1 l2 hs : List (Fin DV → ℕ)) :
    ((check_step m st h).count = if check_hash m h = 0 then st.count + 1 else 0)
    ∧ ((check_step m st h).residue
        = if (check_step m st h).count > LP - L then st.residue + 1 else st.residue)
    ∧ ((check_step m st h).max_count = max st.max_count (check_step m st h).count)
    ∧ (check_batch m st (l1 ++ l2) = check_batch m (check_batch m st l1) l2)
    ∧ ((check_batch m st hs).max_count = (countTrace m st.count hs).foldl max st.max_count) := by
  refine ⟨rfl, rfl, ?_, check_batch_append m st l1 l2, check_batch_max_trace m hs st⟩
  simp only [check_step]
  split_ifs <;> omega

/-! ### Round trip (claim C6) -/

theorem check_batch_all_pass (m : ℕ → ℕ) :
    ∀ (hs : List (Fin DV → ℕ)) (c r mc : ℕ),
      (∀ a ∈ hs, check_hash m a = 0) → c ≤ mc →
      check_batch m ⟨c, r, mc⟩ hs
        = ⟨c + hs.length, r + (c + hs.length - max (LP - L) c), max mc (c + hs.length)⟩ := by
  intro hs
  induction hs with
  | nil =>
    intro c r mc _ hcm
    rw [check_batch, List.foldl_nil, LP_sub_L]
    simp only [List.length_nil, GatherState.mk.injEq]
    omega
  | cons a tl ih =>
    intro c r mc hpass hcm
    have hpa : check_hash m a = 0 := hpass a (List.mem_cons_self a tl)
    have hstep : check_step m ⟨c, r, mc⟩ a
        = ⟨c + 1, if c + 1 > LP - L then r + 1 else r, if c + 1 > mc then c + 1 else mc⟩ := by
      simp [check_step, hpa]
    rw [check_batch, List.foldl_cons, ← check_batch, hstep]
    rw [ih (c + 1) _ _ (fun x hx => hpass x (List.mem_cons_of_mem _ hx)) (by split_ifs <;> omega)]
    rw [LP_sub_L] at *
    simp only [List.length_cons, GatherState.mk.injEq]
    refine ⟨by omega, by split_ifs <;> omega, by split_ifs <;> omega⟩

/-- Round-trip closed form: scattering the `nR` shingles of a shuffled
reference stream into a fresh map and re-checking the same shingle sequence
makes every shingle pass, giving final counter `nR`, residue `nR - (LP - L)`
and maximal run `nR`. -/
theorem scatter_roundtrip_closed (s : ℕ → Byte) (nR : ℕ) :
    check_batch (scatter_consume s nR initMap) ⟨0, 0, 0⟩ (shingleHashes s nR)
      = ⟨nR, nR - (LP - L), nR⟩ := by
  have hpass : ∀ a ∈ shingleHashes s nR, check_hash (scatter_consume s nR initMap) a = 0 := by
    intro a ha
    rw [shingleHashes] at ha
    obtain ⟨j, hj, rfl⟩ := List.mem_map.mp ha
    exact check_hash_eq_zero _ _
      (fun id => scatter_consume_marks s nR j (List.mem_range.mp hj) id)
  rw [check_batch_all_pass _ (shingleHashes s nR) 0 0 0 hpass (le_refl 0)]
  rw [shingleHashes, LP_sub_L]
  simp only [List.length_map, List.length_range, GatherState.mk.injEq]
  omega

/-- Claim C6 (amended): running scatter's consume over the `nR = |R| - L + 1`
shingles of a shuffled reference stream (map initialized all-ones) and then
gather's consume over the same shingle sequence against the resulting map
yields `residue = nR - (LP - L)`, i.e. `|R| - L + 1 - (LP - L)` — not
`|R| - L + 1 - LC` as originally claimed. -/
theorem round_trip_residue (s : ℕ → Byte) (nR : ℕ) :
    (check_batch (scatter_consume s nR initMap) ⟨0, 0, 0⟩ (shingleHashes s nR)).residue
      = nR - (LP - L) := by
  rw [scatter_roundtrip_closed]

/-- Counterexample to claim C6 as stated: for a reference stream of
`|R| = 14` zero bytes (`nR = 10` shingles), the round trip yields
`residue = 5`, which is smaller than the claimed bound
`|R| - L + 1 - LC = 6`. -/
theorem round_trip_counterexample :
    ¬ ((check_batch (scatter_consume zeroBuf (14 - L + 1) initMap) ⟨0, 0, 0⟩
        (shingleHashes zeroBuf (14 - L + 1))).residue ≥ 14 - L + 1 - LC) := by
  rw [scatter_roundtrip_closed]
  decide

/-! ### Batch arithmetic (claims C10 and C5) -/

/-- Claim C10 (batch-count configuration error): both programs compute
`batch_count` as the integer quotient incremented exactly when the remainder
is nonzero — i.e. `ceil(total / BATCH_SIZE)` — and take the `exit(10)`
branch (before the map allocation and before any thread starts) if and only
if the batch count is smaller than 3. -/
theorem batch_count_config (total : ℕ) :
    batch_count_of total = (total + (BATCH_SIZE - 1)) / BATCH_SIZE
    ∧ (config_exit total = some 10 ↔ batch_count_of total < 3) := by
  constructor
  · rw [batch_count_of, BATCH_SIZE]
    split_ifs with h <;> omega
  · rw [config_exit]
    split_ifs with h
    · simp [h]
    · simp [h]

theorem sum_map_const_BS (b : ℕ) :
    ((List.range b).map (fun _ => BATCH_SIZE)).sum = b * BATCH_SIZE := by
  induction b with
  | zero => rfl
  | succ n ihn =>
    rw [List.range_succ, List.map_append, List.sum_append, ihn]
    simp [Nat.succ_mul]

theorem sum_batch_sizes (total : ℕ) (h2 : 2 ≤ batch_count_of total) :
    ((List.range (batch_count_of total)).map (fun k => batch_size_of total (k + 1))).sum
      = (batch_count_of total - 1) * BATCH_SIZE + last_batch_size_of total := by
  obtain ⟨b, hb⟩ : ∃ b, batch_count_of total = b + 1 := ⟨batch_count_of total - 1, by omega⟩
  rw [hb, List.range_succ, List.map_append, List.sum_append]
  have hfull : (List.range b).map (fun k => batch_size_of total (k + 1))
      = (List.range b).map (fun _ => BATCH_SIZE) := by
    apply List.map_congr_left
    intro k hk
    have hkb : k < b := List.mem_range.mp hk
    rw [batch_size_of, if_neg (by omega)]
  rw [hfull]
  have hlast : batch_size_of total (b + 1) = last_batch_size_of total := by
    rw [batch_size_of, if_pos hb.symm]
  simp only [List.map_cons, List.map_nil, List.sum_cons, List.sum_nil, hlast]
  rw [sum_map_const_BS, Nat.add_sub_cancel]
  omega

theorem sum_batch_sizes_skip (total : ℕ) (h2 : 2 ≤ batch_count_of total) :
    ((List.range (batch_count_of total)).map
      (fun k => batch_size_of total (k + 1) - if k = 0 then LC else 0)).sum
      = ((List.range (batch_count_of total)).map (fun k => batch_size_of total (k + 1))).sum
        - LC := by
  obtain ⟨b, hb⟩ : ∃ b, batch_count_of total = b + 1 := ⟨batch_count_of total - 1, by omega⟩
  rw [hb, List.range_succ_eq_map]
  simp only [List.map_cons, List.sum_cons, List.map_map]
  have h1 : batch_size_of total (0 + 1) = BATCH_SIZE := by
    rw [batch_size_of, if_neg (by omega)]
  have htail : ∀ g : ℕ → ℕ,
      (List.range b).map ((fun k => g k - if k = 0 then LC else 0) ∘ Nat.succ)
        = (List.range b).map (g ∘ Nat.succ) := by
    intro g
    apply List.map_congr_left
    intro k _
    simp [Function.comp, Nat.succ_ne_zero]
  rw [htail (fun k => batch_size_of total (k + 1))]
  rw [h1]
  simp only [if_true]
  have hLC : LC ≤ BATCH_SIZE := by decide
  omega

/-- Gather stream totals: the seek position, the exact number of test bytes
`worker1_thread` reads past it, and the exact number of shingles
`worker3_thread` hands to `check_batch`. -/
theorem gather_totals :
    gather_seek_pos = ns ∧ gather_bytes_read = Ntest
    ∧ gather_shingles_checked = Ntest - LC := by
  have hbc : batch_count_of Ntest = 12208 := by decide
  have hlast : last_batch_size_of Ntest = 252 := by decide
  have h2 : 2 ≤ batch_count_of Ntest := by rw [hbc]; norm_num
  refine ⟨rfl, ?_, ?_⟩
  · rw [gather_bytes_read, sum_batch_sizes Ntest h2, hbc, hlast]
    decide
  · rw [gather_shingles_checked, sum_batch_sizes_skip Ntest h2,
      sum_batch_sizes Ntest h2, hbc, hlast]
    decide

/-- Claim C5 (amended): gather positions the master-file read at byte `ns`
but reads only `N = NS - L + 1` test bytes, i.e. bytes `[ns, ns + N)`, and
checks `N - LC` test shingles (the first `LC` slots of batch 1 are the
artificial-carry shingles that are skipped; the final `LC` true test
shingles are never formed). -/
theorem gather_stream_amended :
    gather_seek_pos = ns ∧ gather_bytes_read = Ntest
    ∧ gather_shingles_checked = Ntest - LC :=
  gather_totals

/-- Counterexample to claim C5 as stated: gather does not read `NS` bytes
(it reads `NS - L + 1`), and it does not check all `N = NS - L + 1` test
shingles (it checks `N - LC`). -/
theorem gather_stream_counterexample :
    gather_bytes_read ≠ NS ∧ gather_shingles_checked ≠ Ntest := by
  rw [gather_totals.2.1, gather_totals.2.2]
  decide

/-! ### Memory safety of `hash_batch` (claim C7) -/

/-- Claim C7 exhibit: called with `hash_count = BATCH_SIZE` (as `worker2_thread`
does on every full batch), `hash_batch` writes `com_hash[BATCH_SIZE]` although
`com_ctr` has `BATCH_SIZE` entries, writes `div_hash[BATCH_SIZE*DV + id]`
although `div_ctr` has `BATCH_SIZE*DV` entries, and reads
`s[BATCH_SIZE - 1 + L]` although `buf_ctr` has `BATCH_SIZE + LC` bytes —
three out-of-bounds accesses, so the claimed bounds do not hold. -/
theorem hash_batch_oob :
    (comWriteIdx BATCH_SIZE BATCH_SIZE ∧ ¬ BATCH_SIZE < BATCH_SIZE)
    ∧ (divWriteIdx BATCH_SIZE (BATCH_SIZE * DV) ∧ ¬ BATCH_SIZE * DV < BATCH_SIZE * DV)
    ∧ (bufReadIdx BATCH_SIZE (BATCH_SIZE - 1 + L) ∧ ¬ BATCH_SIZE - 1 + L < BATCH_SIZE + LC) := by
  refine ⟨⟨Or.inr ⟨BATCH_SIZE - 1, by decide, by decide⟩, by omega⟩,
    ⟨Or.inr ⟨BATCH_SIZE - 1, by decide, by decide, ⟨0, by decide, Or.inr (by decide)⟩⟩, by omega⟩,
    ⟨Or.inr (Or.inl ⟨BATCH_SIZE - 1, by decide, Or.inr rfl⟩), by decide⟩⟩

/-! ### Bias bound of the diversified roll (claim C9) -/

/-- Claim C9 (bias bound): for every co-filter `id` and byte value `b`,
`256·M_DIV > C_DIV[id]·b`, and consequently the biased expression
`256·M_DIV + s[L] + hash·B_DIV[id] - C_DIV[id]·s[0]` of `update_div_hashes`
never underflows for any `hash < M_DIV`. -/
theorem div_bias_bound (id : Fin DV) (b h s0 sL : ℕ)
    (hb : b ≤ 255) (hs0 : s0 ≤ 255) (hh : h < M_DIV) :
    C_DIV id * b < 256 * M_DIV
    ∧ C_DIV id * s0 ≤ 256 * M_DIV + sL + h * B_DIV id := by
  have h66 : C_DIV id ≤ 66 := Nat.lt_succ_iff.mp (C_DIV_lt id)
  constructor
  · calc C_DIV id * b ≤ 66 * 255 := Nat.mul_le_mul h66 hb
      _ < 256 * M_DIV := by norm_num [M_DIV]
  · calc C_DIV id * s0 ≤ 66 * 255 := Nat.mul_le_mul h66 hs0
      _ ≤ 256 * M_DIV := by norm_num [M_DIV]
      _ ≤ 256 * M_DIV + sL + h * B_DIV id := by omega

/-- Witness for claim C9 at a concrete input: co-filter 0, byte values 255,
hash value 66. -/
theorem div_bias_bound_witness :
    (255 : ℕ) ≤ 255 ∧ (255 : ℕ) ≤ 255 ∧ (66 : ℕ) < M_DIV
    ∧ (C_DIV cofilter0 * 255 < 256 * M_DIV
        ∧ C_DIV cofilter0 * 255 ≤ 256 * M_DIV + 0 + 66 * B_DIV cofilter0) :=
  ⟨le_refl _, le_refl _, by decide,
    div_bias_bound cofilter0 255 66 255 0 (le_refl _) (le_refl _) (by decide)⟩

/-! ### Permutation generator (claim C8) -/

theorem probe_some_free :
    ∀ (fuel : ℕ) (a : Fin 256 → Bool) (r r2 : Fin 256),
      probe a r fuel = some r2 → a r2 = false := by
  intro fuel
  induction fuel with
  | zero => intro a r r2 h; simp [probe] at h
  | succ f ih =>
    intro a r r2 h
    rw [probe] at h
    by_cases ha : a r
    · rw [if_pos ha] at h
      exact ih a (r + 1) r2 h
    · rw [if_neg ha, Option.some.injEq] at h
      rw [← h]
      exact Bool.eq_false_iff.mpr ha

theorem probe_succeeds :
    ∀ (fuel : ℕ) (a : Fin 256 → Bool) (r : Fin 256),
      (∃ k, k < fuel ∧ a (r + (k : Fin 256)) = false) →
      ∃ r2, probe a r fuel = some r2 := by
  intro fuel
  induction fuel with
  | zero => intro a r ⟨k, hk, _⟩; omega
  | succ f ih =>
    intro a r ⟨k, hk, hfree⟩
    by_cases ha : a r
    · have hk0 : k ≠ 0 := by
        intro h0
        rw [h0] at hfree
        simp only [Nat.cast_zero, add_zero] at hfree
        rw [ha] at hfree
        cases hfree
      obtain ⟨k1, rfl⟩ : ∃ k1, k = k1 + 1 := ⟨k - 1, by omega⟩
      have hshift : r + ((k1 + 1 : ℕ) : Fin 256) = (r + 1) + (k1 : Fin 256) := by
        push_cast
        ring
      rw [hshift] at hfree
      obtain ⟨r2, hr2⟩ := ih a (r + 1) ⟨k1, by omega, hfree⟩
      exact ⟨r2, by rw [probe, if_pos ha]; exact hr2⟩
    · exact ⟨r, by rw [probe, if_neg ha]⟩

theorem exists_free_target (a : Fin 256 → Bool) (x : Fin 256) (hx : a x = false)
    (r : Fin 256) : ∃ k : ℕ, k < 256 ∧ a (r + (k : Fin 256)) = false := by
  refine ⟨(x - r).val, (x - r).isLt, ?_⟩
  rw [Fin.cast_val_eq_self, add_comm, sub_add_cancel]
  exact hx

theorem update_card (a : Fin 256 → Bool) (r : Fin 256) (hr : a r = false) :
    (Finset.univ.filter (fun x => Function.update a r true x = true)).card
      = (Finset.univ.filter (fun x => a x = true)).card + 1 := by
  have hset : Finset.univ.filter (fun x => Function.update a r true x = true)
      = insert r (Finset.univ.filter (fun x => a x = true)) := by
    ext y
    by_cases hy : y = r <;>
      simp [Function.update_apply, hy]
  rw [hset, Finset.card_insert_of_not_mem]
  simp [Finset.mem_filter, hr]

theorem rcpAux_spec (draws : ℕ → Fin 256) :
    ∀ (cnt : ℕ) (a : Fin 256 → Bool) (j : ℕ),
      (Finset.univ.filter (fun x => a x = true)).card + cnt ≤ 256 →
      ∃ p, rcpAux draws a j cnt = some p ∧ p.length = cnt ∧ p.Nodup
        ∧ ∀ x ∈ p, a x = false := by
  intro cnt
  induction cnt with
  | zero => intro a j _; exact ⟨[], rfl, rfl, List.nodup_nil, by simp⟩
  | succ c ih =>
    intro a j hcard
    have hfree : ∃ x, a x = false := by
      by_contra hno
      push_neg at hno
      have hall : ∀ x, a x = true := fun x => Bool.ne_false_iff.mp (hno x)
      have huniv : Finset.univ.filter (fun x => a x = true) = Finset.univ :=
        Finset.filter_true_of_mem (fun x _ => hall x)
      rw [huniv, Finset.card_univ, Fintype.card_fin] at hcard
      omega
    obtain ⟨x, hx⟩ := hfree
    obtain ⟨r, hr⟩ := probe_succeeds 256 a (draws j) (exists_free_target a x hx (draws j))
    have hrfree : a r = false := probe_some_free 256 a (draws j) r hr
    obtain ⟨p1, hp1, hlen, hnd, hfa⟩ :=
      ih (Function.update a r true) (j + 1) (by rw [update_card a r hrfree]; omega)
    refine ⟨r :: p1, ?_, by simp [hlen], ?_, ?_⟩
    · rw [rcpAux, hr]
      show Option.map (fun p => r :: p) (rcpAux draws (Function.update a r true) (j + 1) c)
        = some (r :: p1)
      rw [hp1]
      rfl
    · refine List.nodup_cons.mpr ⟨?_, hnd⟩
      intro hmem
      have hfalse := hfa r hmem
      rw [Function.update_same] at hfalse
      cases hfalse
    · intro y hy
      rcases List.mem_cons.mp hy with rfl | hymem
      · exact hrfree
      · have hfalse := hfa y hymem
        by_cases hyr : y = r
        · subst hyr
          rw [Function.update_same] at hfalse
          cases hfalse
        · rwa [Function.update_noteq hyr] at hfalse

/-- Claim C8 (permutation post-condition): for every PRNG draw sequence the
generator loop of `rcp_generator` terminates (fuel 256 always suffices for
the wrap-around linear probe) and produces a 256-entry array that is a
bijection on `[0,256)` — all entries distinct and every value attained — so
the duplicate-detection branch (`RCP ERROR`, `exit(25)`) is unreachable. -/
theorem rcp_generator_bijection (draws : ℕ → Fin 256) :
    ∃ p, rcp_generator draws = some p ∧ p.length = 256 ∧ p.Nodup
      ∧ (∀ y : Fin 256, y ∈ p) ∧ rcp_dup_error p = false := by
  have hstart : (Finset.univ.filter (fun x : Fin 256 => (fun _ : Fin 256 => false) x = true)).card
      + 256 ≤ 256 := by
    have hemp : Finset.univ.filter (fun x : Fin 256 => (fun _ : Fin 256 => false) x = true) = ∅ :=
      Finset.filter_false_of_mem (fun x _ => by simp)
    rw [hemp, Finset.card_empty]
  obtain ⟨p, hp, hlen, hnd, _⟩ := rcpAux_spec draws 256 (fun _ => false) 0 hstart
  refine ⟨p, hp, hlen, hnd, ?_, ?_⟩
  · intro y
    have hcard : p.toFinset.card = 256 := by
      rw [List.toFinset_card_of_nodup hnd, hlen]
    have huniv : p.toFinset = Finset.univ :=
      Finset.eq_univ_of_card _ (by rw [hcard, Fintype.card_fin])
    rw [← List.mem_toFinset, huniv]
    exact Finset.mem_univ y
  · rw [rcp_dup_error, decide_eq_false_iff_not]
    rintro ⟨jj, ii, hlt, heq⟩
    rw [(List.Nodup.get_inj_iff hnd).mp heq] at hlt
    exact lt_irrefl _ hlt

end CSF
